import Mathlib

/-!
Verification development for the focus-header plugin (src/main.ts).

The plugin parses a Markdown document into a flat list of heading nodes
with parent back-references, locates the heading containing the cursor,
optionally navigates to a sibling heading, computes the set of heading
lines that must stay unfolded, and folds everything else.

The embedding below translates the three command implementations
(focusOnCurrentHeader, focusOnNextSibling, focusOnPreviousSibling).
All three share the same parsing, locating and planning code; the shared
pieces are embedded once.  A document is represented as its list of
lines (the source splits the editor text at newline characters); parent
references are represented as indices into the parsed node list, which
is faithful because every node is a distinct object with a distinct
line, and the source compares parents by object identity.
-/

/-- The set of characters matched by the JavaScript regex class bAckslash-s
(as used in the heading pattern at src/main.ts line 48). -/
def isSpaceJS (c : Char) : Bool :=
  c = ' ' || c = '\t' || c = '\n' || c = (Char.ofNat 11) || c = (Char.ofNat 12) ||
  c = '\r' || c = (Char.ofNat 160) || c = (Char.ofNat 0x1680) ||
  (0x2000 ≤ c.toNat && c.toNat ≤ 0x200a) || c = (Char.ofNat 0x2028) ||
  c = (Char.ofNat 0x2029) || c = (Char.ofNat 0x202f) || c = (Char.ofNat 0x205f) ||
  c = (Char.ofNat 0x3000) || c = (Char.ofNat 0xfeff)

/-- Length of the maximal run of marker characters at the start of a line. -/
def hashRunLen : List Char → Nat
  | [] => 0
  | c :: cs => if c = '#' then hashRunLen cs + 1 else 0

/-- The heading matcher: a line matches the pattern (one or more marker
characters followed by a whitespace character, anchored at line start)
exactly when this returns some level, the level being the marker count.
Embeds the regex match at src/main.ts line 48. -/
def headingLevel (cs : List Char) : Option Nat :=
  let n := hashRunLen cs
  match (cs.drop n).head? with
  | some c => if 0 < n && isSpaceJS c then some n else none
  | none => none

/-- A parsed heading: zero-based line number, marker-count level, and the
parent back-reference as an index into the parsed node list (the source
stores an object reference; nodes are distinct objects so an index is an
equivalent representation).  src/main.ts lines 5-9. -/
structure HeaderNode where
  line : Nat
  level : Nat
  parent : Option Nat
deriving DecidableEq

/-- The parent lookup loop (src/main.ts lines 53-58): scan levels from
level - 1 down to 1 and return the first recorded node. -/
def findParent (lastBy : Nat → Option Nat) : Nat → Option Nat
  | 0 => none
  | l + 1 =>
    match lastBy (l + 1) with
    | some j => some j
    | none => findParent lastBy l

/-- The parsing loop (src/main.ts lines 47-62): walk the lines keeping,
for each level, the index of the most recent node at that level; emit
one node per matching line.  i is the current line number, acc the nodes
emitted so far (a new node's index is acc.length, matching push). -/
def parseGo (i : Nat) (acc : List HeaderNode) (lastBy : Nat → Option Nat) :
    List String → List HeaderNode
  | [] => acc
  | s :: rest =>
    match headingLevel s.data with
    | none => parseGo (i + 1) acc lastBy rest
    | some level =>
      let node : HeaderNode := ⟨i, level, findParent lastBy (level - 1)⟩
      parseGo (i + 1) (acc ++ [node])
        (fun l => if l = level then some acc.length else lastBy l) rest

/-- Parse a document (given as its list of lines) into the header list. -/
def parseHeaders (lines : List String) : List HeaderNode :=
  parseGo 0 [] (fun _ => none) lines

/-- The locator loop (src/main.ts lines 66-71): scan indices from the end
of the list downward and return the first whose line is at or before the
cursor.  The argument m is one past the next index to examine. -/
def locAux (headers : List HeaderNode) (cursor : Nat) : Nat → Option Nat
  | 0 => none
  | k + 1 =>
    match headers[k]? with
    | none => none
    | some h => if h.line ≤ cursor then some k else locAux headers cursor k

/-- Locate the current header: the scan starts at the last index. -/
def findCurrentIdx (headers : List HeaderNode) (cursor : Nat) : Option Nat :=
  locAux headers cursor headers.length

/-- The forward sibling scan (src/main.ts lines 158-165) over the list of
nodes after the current one; k is the index of the head of the list. -/
def scanNextList (level : Nat) (parent : Option Nat) :
    Nat → List HeaderNode → Option Nat
  | _, [] => none
  | k, h :: t =>
    if h.level = level ∧ h.parent = parent then some k
    else if h.level ≤ level then none
    else scanNextList level parent (k + 1) t

/-- Find the next sibling of the node at index c (src/main.ts 157-165). -/
def findNextSibling (headers : List HeaderNode) (c : Nat) : Option Nat :=
  match headers[c]? with
  | none => none
  | some cur => scanNextList cur.level cur.parent (c + 1) (headers.drop (c + 1))

/-- The backward sibling scan (src/main.ts lines 250-257): examine indices
k - 1, k - 2, ..., 0 in that order. -/
def scanPrevAux (headers : List HeaderNode) (level : Nat) (parent : Option Nat) :
    Nat → Option Nat
  | 0 => none
  | k + 1 =>
    match headers[k]? with
    | none => none
    | some h =>
      if h.level = level ∧ h.parent = parent then some k
      else if h.level ≤ level then none
      else scanPrevAux headers level parent k

/-- Find the previous sibling of the node at index c (src/main.ts 249-257). -/
def findPrevSibling (headers : List HeaderNode) (c : Nat) : Option Nat :=
  match headers[c]? with
  | none => none
  | some cur => scanPrevAux headers cur.level cur.parent c

/-- The ancestor walk (src/main.ts lines 79-83): follow parent links from
the focus node, collecting each visited node's line.  The source's while
loop terminates because parent indices strictly decrease; the fuel
argument makes that termination explicit and is chosen large enough
(headers.length at the top call) never to run out on parsed input. -/
def ancestorLines (headers : List HeaderNode) : Nat → Nat → List Nat
  | 0, _ => []
  | fuel + 1, i =>
    match headers[i]? with
    | none => []
    | some h =>
      h.line ::
        (match h.parent with
         | none => []
         | some p => ancestorLines headers fuel p)

/-- Children of the node at index i: the indices whose parent reference is
i, in document order (the filter inside collectDescendants, src/main.ts
lines 88-92).  k is the index of the head of the remaining list. -/
def childIdxsAux (i : Nat) : Nat → List HeaderNode → List Nat
  | _, [] => []
  | k, h :: t =>
    if h.parent = some i then k :: childIdxsAux i (k + 1) t
    else childIdxsAux i (k + 1) t

/-- Children of the node at index i over the whole header list. -/
def childIdxs (headers : List HeaderNode) (i : Nat) : List Nat :=
  childIdxsAux i 0 headers

/-- The recursive descendant collection (src/main.ts lines 86-94): the
focus node's line followed by the collected lines of every child's
subtree.  Fueled like ancestorLines; child indices strictly increase, so
fuel headers.length suffices at the top call on parsed input. -/
def descLines (headers : List HeaderNode) : Nat → Nat → List Nat
  | 0, _ => []
  | fuel + 1, i =>
    match headers[i]? with
    | none => []
    | some h =>
      h.line :: ((childIdxs headers i).map (descLines headers fuel)).flatten

/-- The unfold set for a focus node (src/main.ts lines 76-94): the lines
added by the ancestor walk followed by those added by the descendant
collection.  Membership in this list is what the fold loop tests. -/
def unfoldSet (headers : List HeaderNode) (i : Nat) : List Nat :=
  ancestorLines headers headers.length i ++ descLines headers headers.length i

/-- The editor state visible to the plugin: the document lines, the cursor
line, the set of currently folded ranges, and the scroll position.  The
plugin never edits the text, so folding state is the only part the
commands are meant to change (plus cursor and scroll on navigation). -/
structure EditorState where
  lines : List String
  cursorLine : Nat
  folded : List (Nat × Nat)
  scroll : Nat
deriving DecidableEq

/-- Apply a fold/unfold batch (src/main.ts lines 97-111): for each header
with a foldable range, unfold it when its line is in the unfold set and
fold it otherwise; headers without a foldable range are skipped.  fb is
the foldable-range query of the rendering collaborator. -/
def applyFolds (fb : List String → Nat → Option (Nat × Nat))
    (lines : List String) (headers : List HeaderNode) (uf : List Nat)
    (folded : List (Nat × Nat)) : List (Nat × Nat) :=
  let unfoldRs := headers.filterMap fun h =>
    match fb lines h.line with
    | some r => if h.line ∈ uf then some r else none
    | none => none
  let foldRs := headers.filterMap fun h =>
    match fb lines h.line with
    | some r => if h.line ∈ uf then none else some r
    | none => none
  folded.filter (fun r => decide (r ∉ unfoldRs)) ++ foldRs

/-- The Focus on Current Header command (src/main.ts lines 36-116) as a
state transformer; sc is the collaborator's scroll-position query.  On a
missing current header the command returns before any effect. -/
def focusStep (fb : List String → Nat → Option (Nat × Nat))
    (sc : List String → Nat → Nat) (s : EditorState) : EditorState :=
  match findCurrentIdx (parseHeaders s.lines) s.cursorLine with
  | none => s
  | some c =>
    match (parseHeaders s.lines)[c]? with
    | none => s
    | some cur =>
      { s with
        folded := applyFolds fb s.lines (parseHeaders s.lines)
          (unfoldSet (parseHeaders s.lines) c) s.folded,
        scroll := sc s.lines cur.line }

/-- The Focus on Next Header command (src/main.ts lines 118-208): resolve
the next sibling, unfold its path and subtree, fold the rest, scroll and
move the cursor to the sibling's line. -/
def nextStep (fb : List String → Nat → Option (Nat × Nat))
    (sc : List String → Nat → Nat) (s : EditorState) : EditorState :=
  match findCurrentIdx (parseHeaders s.lines) s.cursorLine with
  | none => s
  | some c =>
    match findNextSibling (parseHeaders s.lines) c with
    | none => s
    | some n =>
      match (parseHeaders s.lines)[n]? with
      | none => s
      | some sib =>
        { lines := s.lines,
          cursorLine := sib.line,
          folded := applyFolds fb s.lines (parseHeaders s.lines)
            (unfoldSet (parseHeaders s.lines) n) s.folded,
          scroll := sc s.lines sib.line }

/-- The Focus on Previous Header command (src/main.ts lines 210-300). -/
def prevStep (fb : List String → Nat → Option (Nat × Nat))
    (sc : List String → Nat → Nat) (s : EditorState) : EditorState :=
  match findCurrentIdx (parseHeaders s.lines) s.cursorLine with
  | none => s
  | some c =>
    match findPrevSibling (parseHeaders s.lines) c with
    | none => s
    | some n =>
      match (parseHeaders s.lines)[n]? with
      | none => s
      | some sib =>
        { lines := s.lines,
          cursorLine := sib.line,
          folded := applyFolds fb s.lines (parseHeaders s.lines)
            (unfoldSet (parseHeaders s.lines) n) s.folded,
          scroll := sc s.lines sib.line }

/-- The visible-set decision of Focus on Current Header, as a function of
the state: none when no current header exists, otherwise the unfold set
for the located header. -/
def focusVisible (s : EditorState) : Option (List Nat) :=
  (findCurrentIdx (parseHeaders s.lines) s.cursorLine).map
    (unfoldSet (parseHeaders s.lines))

/-- Ancestor-or-self relation of the parsed tree: Anc headers i j holds
when following parent links from index i reaches index j. -/
inductive Anc (headers : List HeaderNode) : Nat → Nat → Prop
  | refl (i : Nat) : Anc headers i i
  | step {i p j : Nat} {h : HeaderNode} :
      headers[i]? = some h → h.parent = some p → Anc headers p j →
      Anc headers i j

lemma hashRunLen_cons (c : Char) (cs : List Char) :
    hashRunLen (c :: cs) = if c = '#' then hashRunLen cs + 1 else 0 := rfl

lemma headingLevel_eq (cs : List Char) :
    headingLevel cs =
      match (cs.drop (hashRunLen cs)).head? with
      | some c =>
        if (decide (0 < hashRunLen cs) && isSpaceJS c) = true
        then some (hashRunLen cs) else none
      | none => none := rfl

lemma hashRunLen_replicate_append (l : Nat) (xs : List Char) :
    hashRunLen (List.replicate l '#' ++ xs) = l + hashRunLen xs := by
  induction l with
  | zero => simp
  | succ n ih =>
    rw [List.replicate_succ, List.cons_append, hashRunLen_cons, if_pos rfl, ih]
    omega

lemma hashRunLen_take (cs : List Char) :
    cs.take (hashRunLen cs) = List.replicate (hashRunLen cs) '#' := by
  induction cs with
  | nil => simp [hashRunLen]
  | cons c cs ih =>
    by_cases hc : c = '#'
    · subst hc
      rw [hashRunLen_cons, if_pos rfl, List.take_succ_cons, List.replicate_succ, ih]
    · rw [hashRunLen_cons, if_neg hc]
      simp

lemma isSpaceJS_ne_hash {c : Char} (h : isSpaceJS c = true) : c ≠ '#' := by
  intro hc
  subst hc
  exact absurd h (by decide)

lemma headingLevel_eq_some_iff (cs : List Char) (l : Nat) :
    headingLevel cs = some l ↔
      0 < l ∧ ∃ c cs2, cs = List.replicate l '#' ++ c :: cs2 ∧ isSpaceJS c = true := by
  constructor
  · intro h
    rw [headingLevel_eq] at h
    cases hh : (cs.drop (hashRunLen cs)).head? with
    | none => rw [hh] at h; exact absurd h (by simp)
    | some c =>
      rw [hh] at h
      dsimp only at h
      by_cases hcond : (decide (0 < hashRunLen cs) && isSpaceJS c) = true
      · rw [if_pos hcond] at h
        have hln : hashRunLen cs = l := by injection h
        obtain ⟨hpos2, hsp⟩ := (Bool.and_eq_true _ _).mp hcond
        have hpos : 0 < hashRunLen cs := of_decide_eq_true hpos2
        subst hln
        refine ⟨hpos, c, (cs.drop (hashRunLen cs)).tail, ?_, hsp⟩
        have htl : c :: (cs.drop (hashRunLen cs)).tail = cs.drop (hashRunLen cs) :=
          List.cons_head?_tail (by rw [hh]; rfl)
        rw [htl, ← hashRunLen_take]
        exact (List.take_append_drop _ _).symm
      · rw [if_neg hcond] at h; exact absurd h (by simp)
  · rintro ⟨hpos, c, cs2, rfl, hsp⟩
    have hne : c ≠ '#' := isSpaceJS_ne_hash hsp
    have hrun : hashRunLen (List.replicate l '#' ++ c :: cs2) = l := by
      rw [hashRunLen_replicate_append, hashRunLen_cons, if_neg hne]
      omega
    rw [headingLevel_eq, hrun]
    have hdrop : (List.replicate l '#' ++ c :: cs2).drop l = c :: cs2 := by
      have := List.drop_left (List.replicate l '#') (c :: cs2)
      rwa [List.length_replicate] at this
    rw [hdrop]
    simp [hpos, hsp]

lemma headingLevel_pos {cs : List Char} {l : Nat} (h : headingLevel cs = some l) :
    0 < l :=
  ((headingLevel_eq_some_iff cs l).mp h).1

lemma parseGo_map (rest : List String) : ∀ (i : Nat) (acc : List HeaderNode)
    (lastBy : Nat → Option Nat),
    (parseGo i acc lastBy rest).map (fun h => (h.line, h.level)) =
      acc.map (fun h => (h.line, h.level)) ++
        (List.enumFrom i rest).filterMap
          (fun p => (headingLevel p.2.data).map (fun l => (p.1, l))) := by
  induction rest with
  | nil => intro i acc lastBy; simp [parseGo]
  | cons s rest ih =>
    intro i acc lastBy
    rw [parseGo]
    cases hm : headingLevel s.data with
    | none =>
      rw [ih]
      simp [List.enumFrom, hm]
    | some level =>
      rw [ih]
      simp [List.enumFrom, hm]

lemma getElem?_some_lt {α : Type} {l : List α} {j : Nat} {a : α}
    (hg : l[j]? = some a) : j < l.length :=
  (List.getElem?_eq_some.mp hg).1

/-- Soundness of the lastByLevel map (src/main.ts line 44) relative to the
nodes emitted so far: a recorded index points at the most recent node at
exactly that level, and an absent entry means no node has that level. -/
def LastBySound (acc : List HeaderNode) (lastBy : Nat → Option Nat) : Prop :=
  ∀ l : Nat,
    (∀ j, lastBy l = some j →
      ∃ h, acc[j]? = some h ∧ h.level = l ∧
        ∀ (k : Nat) (hk : HeaderNode), acc[k]? = some hk → j < k → hk.level ≠ l) ∧
    (lastBy l = none →
      ∀ (k : Nat) (hk : HeaderNode), acc[k]? = some hk → hk.level ≠ l)

/-- What the parsing loop guarantees of each emitted node: a positive
level; if a parent was recorded, it is an earlier node, of strictly
smaller level, the most recent node at its own level, and no earlier
node has a level strictly between the parent level and the node level;
if no parent was recorded, every earlier node has level at least the
node's own level. -/
def NodeOK (headers : List HeaderNode) (j : Nat) (h : HeaderNode) : Prop :=
  1 ≤ h.level ∧
  (∀ p, h.parent = some p →
    p < j ∧ ∃ hp, headers[p]? = some hp ∧ hp.level < h.level ∧
      (∀ (k : Nat) (hk : HeaderNode), headers[k]? = some hk → p < k → k < j →
        hk.level ≠ hp.level) ∧
      (∀ (k : Nat) (hk : HeaderNode), headers[k]? = some hk → k < j →
        ¬(hp.level < hk.level ∧ hk.level < h.level))) ∧
  (h.parent = none →
    ∀ (k : Nat) (hk : HeaderNode), headers[k]? = some hk → k < j → h.level ≤ hk.level)

/-- All nodes of a header list satisfy NodeOK. -/
def HeadersOK (headers : List HeaderNode) : Prop :=
  ∀ j h, headers[j]? = some h → NodeOK headers j h

lemma nodeOK_append {acc : List HeaderNode} {j : Nat} {h : HeaderNode}
    (l2 : List HeaderNode) (hj : j ≤ acc.length) (hok : NodeOK acc j h) :
    NodeOK (acc ++ l2) j h := by
  obtain ⟨h1, h2, h3⟩ := hok
  refine ⟨h1, ?_, ?_⟩
  · intro p hp
    obtain ⟨hpj, hpn, hget, hlt, hlast, hmid⟩ := h2 p hp
    refine ⟨hpj, hpn, ?_, hlt, ?_, ?_⟩
    · rw [List.getElem?_append_left (lt_of_lt_of_le hpj hj)]
      exact hget
    · intro k hk hgk hpk hkj
      rw [List.getElem?_append_left (lt_of_lt_of_le hkj hj)] at hgk
      exact hlast k hk hgk hpk hkj
    · intro k hk hgk hkj
      rw [List.getElem?_append_left (lt_of_lt_of_le hkj hj)] at hgk
      exact hmid k hk hgk hkj
  · intro hnone k hk hgk hkj
    rw [List.getElem?_append_left (lt_of_lt_of_le hkj hj)] at hgk
    exact h3 hnone k hk hgk hkj

lemma findParent_succ (lastBy : Nat → Option Nat) (n : Nat) :
    findParent lastBy (n + 1) =
      match lastBy (n + 1) with
      | some j => some j
      | none => findParent lastBy n := rfl

lemma findParent_some {lastBy : Nat → Option Nat} :
    ∀ m p, findParent lastBy m = some p →
      ∃ l, 1 ≤ l ∧ l ≤ m ∧ lastBy l = some p ∧
        ∀ q, l < q → q ≤ m → lastBy q = none := by
  intro m
  induction m with
  | zero => intro p h; exact absurd h (by simp [findParent])
  | succ n ih =>
    intro p h
    rw [findParent_succ] at h
    cases hl : lastBy (n + 1) with
    | some j =>
      rw [hl] at h
      dsimp only at h
      have hjp : j = p := by injection h
      subst hjp
      exact ⟨n + 1, by omega, le_refl _, hl, fun q hq1 hq2 => absurd hq2 (by omega)⟩
    | none =>
      rw [hl] at h
      dsimp only at h
      obtain ⟨l, h1, h2, h3, h4⟩ := ih p h
      refine ⟨l, h1, by omega, h3, ?_⟩
      intro q hq1 hq2
      by_cases hq : q = n + 1
      · subst hq; exact hl
      · exact h4 q hq1 (by omega)

lemma findParent_none {lastBy : Nat → Option Nat} :
    ∀ m, findParent lastBy m = none → ∀ q, 1 ≤ q → q ≤ m → lastBy q = none := by
  intro m
  induction m with
  | zero => intro _ q h1 h2; exact absurd (le_trans h1 h2) (by omega)
  | succ n ih =>
    intro h q h1 h2
    rw [findParent_succ] at h
    cases hl : lastBy (n + 1) with
    | some j => rw [hl] at h; exact absurd h (by simp)
    | none =>
      rw [hl] at h
      dsimp only at h
      by_cases hq : q = n + 1
      · subst hq; exact hl
      · exact ih h q h1 (by omega)

lemma lastBySound_push {acc : List HeaderNode} {lastBy : Nat → Option Nat}
    (hsound : LastBySound acc lastBy) (node : HeaderNode) :
    LastBySound (acc ++ [node])
      (fun l => if l = node.level then some acc.length else lastBy l) := by
  unfold LastBySound
  intro l
  dsimp only
  constructor
  · intro j hj
    by_cases hl : l = node.level
    · rw [if_pos hl] at hj
      have hje : acc.length = j := by injection hj
      subst hje
      refine ⟨node, List.getElem?_concat_length acc node, hl.symm, ?_⟩
      intro k hk hgk hlt
      have hlen : (acc ++ [node]).length ≤ k := by
        rw [List.length_append, List.length_singleton]; omega
      rw [List.getElem?_eq_none hlen] at hgk
      cases hgk
    · rw [if_neg hl] at hj
      obtain ⟨h, hget, hlev, hlast⟩ := (hsound l).1 j hj
      have hjl : j < acc.length := getElem?_some_lt hget
      refine ⟨h, by rw [List.getElem?_append_left hjl]; exact hget, hlev, ?_⟩
      intro k hk hgk hlt
      by_cases hkl : k < acc.length
      · rw [List.getElem?_append_left hkl] at hgk
        exact hlast k hk hgk hlt
      · by_cases hke : k = acc.length
        · subst hke
          rw [List.getElem?_concat_length] at hgk
          have : hk = node := by injection hgk with he; exact he.symm
          subst this
          exact fun hc => hl (hc ▸ rfl)
        · have hlen : (acc ++ [node]).length ≤ k := by
            rw [List.length_append, List.length_singleton]; omega
          rw [List.getElem?_eq_none hlen] at hgk
          cases hgk
  · intro hnone k hk hgk
    by_cases hl : l = node.level
    · rw [if_pos hl] at hnone; cases hnone
    · rw [if_neg hl] at hnone
      by_cases hkl : k < acc.length
      · rw [List.getElem?_append_left hkl] at hgk
        exact (hsound l).2 hnone k hk hgk
      · by_cases hke : k = acc.length
        · subst hke
          rw [List.getElem?_concat_length] at hgk
          have : hk = node := by injection hgk with he; exact he.symm
          subst this
          exact fun hc => hl (hc ▸ rfl)
        · have hlen : (acc ++ [node]).length ≤ k := by
            rw [List.length_append, List.length_singleton]; omega
          rw [List.getElem?_eq_none hlen] at hgk
          cases hgk

lemma newNodeOK {acc : List HeaderNode} {lastBy : Nat → Option Nat} {i level : Nat}
    (hacc : HeadersOK acc) (hsound : LastBySound acc lastBy) (hlev : 1 ≤ level) :
    NodeOK (acc ++ [(⟨i, level, findParent lastBy (level - 1)⟩ : HeaderNode)])
      acc.length ⟨i, level, findParent lastBy (level - 1)⟩ := by
  unfold NodeOK
  refine ⟨hlev, ?_, ?_⟩
  · intro p hp
    dsimp only at hp
    obtain ⟨l, hl1, hl2, hl3, hl4⟩ := findParent_some _ p hp
    obtain ⟨hpnode, hgetp, hplev, hplast⟩ := (hsound l).1 p hl3
    have hpl : p < acc.length := getElem?_some_lt hgetp
    refine ⟨hpl, hpnode, ?_, ?_, ?_, ?_⟩
    · rw [List.getElem?_append_left hpl]; exact hgetp
    · dsimp only; omega
    · intro k hk hgk hpk hkj
      rw [List.getElem?_append_left hkj] at hgk
      rw [hplev]
      exact hplast k hk hgk hpk
    · intro k hk hgk hkj
      rw [List.getElem?_append_left hkj] at hgk
      dsimp only
      rintro ⟨ha, hb⟩
      rw [hplev] at ha
      have hnone : lastBy hk.level = none := hl4 hk.level ha (by omega)
      exact (hsound hk.level).2 hnone k hk hgk rfl
  · intro hnone k hk hgk hkj
    dsimp only at hnone ⊢
    rw [List.getElem?_append_left hkj] at hgk
    have hk1 : 1 ≤ hk.level := (hacc k hk hgk).1
    by_cases hklev : hk.level < level
    · have h0 : lastBy hk.level = none :=
        findParent_none _ hnone hk.level hk1 (by omega)
      exact absurd rfl ((hsound hk.level).2 h0 k hk hgk)
    · omega

lemma parseGo_cons (i : Nat) (acc : List HeaderNode) (lastBy : Nat → Option Nat)
    (s : String) (rest : List String) :
    parseGo i acc lastBy (s :: rest) =
      match headingLevel s.data with
      | none => parseGo (i + 1) acc lastBy rest
      | some level =>
        parseGo (i + 1) (acc ++ [⟨i, level, findParent lastBy (level - 1)⟩])
          (fun l => if l = level then some acc.length else lastBy l) rest := rfl

lemma parseGo_ok (rest : List String) : ∀ (i : Nat) (acc : List HeaderNode)
    (lastBy : Nat → Option Nat),
    (∀ (j : Nat) (h : HeaderNode), acc[j]? = some h → h.line < i) →
    acc.Pairwise (fun a b => a.line < b.line) →
    HeadersOK acc → LastBySound acc lastBy →
    HeadersOK (parseGo i acc lastBy rest) ∧
      (parseGo i acc lastBy rest).Pairwise (fun a b => a.line < b.line) := by
  induction rest with
  | nil =>
    intro i acc lastBy _ hp hok _
    exact ⟨hok, hp⟩
  | cons s rest ih =>
    intro i acc lastBy hlines hp hok hsound
    rw [parseGo_cons]
    cases hm : headingLevel s.data with
    | none =>
      exact ih (i + 1) acc lastBy
        (fun j h hg => lt_trans (hlines j h hg) (Nat.lt_succ_self i)) hp hok hsound
    | some level =>
      dsimp only
      apply ih (i + 1)
      · intro j h hg
        by_cases hjl : j < acc.length
        · rw [List.getElem?_append_left hjl] at hg
          exact lt_trans (hlines j h hg) (Nat.lt_succ_self i)
        · by_cases hje : j = acc.length
          · subst hje
            rw [List.getElem?_concat_length] at hg
            injection hg with he
            rw [← he]
            exact Nat.lt_succ_self i
          · have hlen : (acc ++ [(⟨i, level, findParent lastBy (level - 1)⟩ :
                HeaderNode)]).length ≤ j := by
              rw [List.length_append, List.length_singleton]; omega
            rw [List.getElem?_eq_none hlen] at hg
            cases hg
      · rw [List.pairwise_append]
        refine ⟨hp, List.pairwise_singleton _ _, ?_⟩
        intro a ha b hb
        rw [List.mem_singleton] at hb
        subst hb
        obtain ⟨j, hj⟩ := List.mem_iff_getElem?.mp ha
        exact hlines j a hj
      · intro j h hg
        by_cases hjl : j < acc.length
        · rw [List.getElem?_append_left hjl] at hg
          exact nodeOK_append _ (le_of_lt hjl) (hok j h hg)
        · by_cases hje : j = acc.length
          · subst hje
            rw [List.getElem?_concat_length] at hg
            injection hg with he
            rw [← he]
            exact newNodeOK hok hsound (headingLevel_pos hm)
          · have hlen : (acc ++ [(⟨i, level, findParent lastBy (level - 1)⟩ :
                HeaderNode)]).length ≤ j := by
              rw [List.length_append, List.length_singleton]; omega
            rw [List.getElem?_eq_none hlen] at hg
            cases hg
      · exact lastBySound_push hsound _

lemma parse_ok (lines : List String) :
    HeadersOK (parseHeaders lines) ∧
      (parseHeaders lines).Pairwise (fun a b => a.line < b.line) := by
  unfold parseHeaders
  apply parseGo_ok
  · intro j h hg; simp at hg
  · exact List.Pairwise.nil
  · intro j h hg; simp at hg
  · unfold LastBySound
    intro l
    constructor
    · intro j hj; exact absurd hj (by simp)
    · intro _ k hk hg; simp at hg

lemma parse_headersOK (lines : List String) : HeadersOK (parseHeaders lines) :=
  (parse_ok lines).1

lemma parse_sorted (lines : List String) :
    (parseHeaders lines).Pairwise (fun a b => a.line < b.line) :=
  (parse_ok lines).2

lemma sorted_line_lt {headers : List HeaderNode}
    (hs : headers.Pairwise (fun a b => a.line < b.line))
    {j k : Nat} {hj hk : HeaderNode} (h1 : headers[j]? = some hj)
    (h2 : headers[k]? = some hk) (hjk : j < k) : hj.line < hk.line := by
  obtain ⟨hjl, hje⟩ := List.getElem?_eq_some.mp h1
  obtain ⟨hkl, hke⟩ := List.getElem?_eq_some.mp h2
  have hr := List.pairwise_iff_getElem.mp hs j k hjl hkl hjk
  rw [hje, hke] at hr
  exact hr

lemma sorted_line_inj {headers : List HeaderNode}
    (hs : headers.Pairwise (fun a b => a.line < b.line))
    {j k : Nat} {hj hk : HeaderNode} (h1 : headers[j]? = some hj)
    (h2 : headers[k]? = some hk) (heq : hj.line = hk.line) : j = k := by
  rcases lt_trichotomy j k with hlt | he | hgt
  · exact absurd heq (Nat.ne_of_lt (sorted_line_lt hs h1 h2 hlt))
  · exact he
  · exact absurd heq.symm (Nat.ne_of_lt (sorted_line_lt hs h2 h1 hgt))

lemma parent_facts {headers : List HeaderNode} (H : HeadersOK headers)
    {j p : Nat} {h : HeaderNode} (hg : headers[j]? = some h)
    (hp : h.parent = some p) :
    p < j ∧ ∃ hpn, headers[p]? = some hpn ∧ hpn.level < h.level := by
  obtain ⟨-, h2, -⟩ := H j h hg
  obtain ⟨hpj, hpn, hget, hlt, -, -⟩ := h2 p hp
  exact ⟨hpj, hpn, hget, hlt⟩

lemma anc_trans {headers : List HeaderNode} {i j k : Nat}
    (h1 : Anc headers i j) (h2 : Anc headers j k) : Anc headers i k := by
  induction h1 with
  | refl => exact h2
  | step hg hp _ ih => exact Anc.step hg hp (ih h2)

lemma anc_strict {headers : List HeaderNode} (H : HeadersOK headers)
    (hs : headers.Pairwise (fun a b => a.line < b.line)) :
    ∀ {i j : Nat}, Anc headers i j → i = j ∨
      (j < i ∧ ∃ hi hj, headers[i]? = some hi ∧ headers[j]? = some hj ∧
        hj.level < hi.level ∧ hj.line < hi.line) := by
  intro i j h
  induction h with
  | refl => exact Or.inl rfl
  | step hg hp rest ih =>
    obtain ⟨hpi, hpn, hgetp, hplt⟩ := parent_facts H hg hp
    rcases ih with he | ⟨hjp, hp2, hj2, hgp2, hgj, hlev, hline⟩
    · subst he
      exact Or.inr ⟨hpi, _, _, hg, hgetp, hplt,
        sorted_line_lt hs hgetp hg hpi⟩
    · have hup : hp2 = hpn := by
        rw [hgp2] at hgetp; exact Option.some.inj hgetp
      subst hup
      refine Or.inr ⟨lt_trans hjp hpi, _, _, hg, hgj, lt_trans hlev hplt, ?_⟩
      exact lt_trans hline (sorted_line_lt hs hgetp hg hpi)

lemma anc_child_decomp {headers : List HeaderNode} {j f : Nat}
    (h : Anc headers j f) :
    j = f ∨ ∃ c hc, headers[c]? = some hc ∧ hc.parent = some f ∧
      Anc headers j c := by
  induction h with
  | refl => exact Or.inl rfl
  | step hg hp rest ih =>
    rcases ih with he | ⟨c, hc, hgc, hpc, hanc⟩
    · subst he
      exact Or.inr ⟨_, _, hg, hp, Anc.refl _⟩
    · exact Or.inr ⟨c, hc, hgc, hpc, Anc.step hg hp hanc⟩

lemma childIdxsAux_cons (i k : Nat) (h : HeaderNode) (t : List HeaderNode) :
    childIdxsAux i k (h :: t) =
      if h.parent = some i then k :: childIdxsAux i (k + 1) t
      else childIdxsAux i (k + 1) t := rfl

lemma childIdxsAux_mem (i : Nat) :
    ∀ (t : List HeaderNode) (k0 j : Nat),
      j ∈ childIdxsAux i k0 t ↔
        ∃ d hd, t[d]? = some hd ∧ hd.parent = some i ∧ j = k0 + d := by
  intro t
  induction t with
  | nil => intro k0 j; simp [childIdxsAux]
  | cons h t ih =>
    intro k0 j
    rw [childIdxsAux_cons]
    by_cases hpar : h.parent = some i
    · rw [if_pos hpar]
      simp only [List.mem_cons, ih]
      constructor
      · rintro (rfl | ⟨d, hd, hg, hp2, rfl⟩)
        · exact ⟨0, h, by simp, hpar, by omega⟩
        · exact ⟨d + 1, hd, by simpa using hg, hp2, by omega⟩
      · rintro ⟨d, hd, hg, hp2, rfl⟩
        cases d with
        | zero =>
          left
          simp only [List.getElem?_cons_zero] at hg
          omega
        | succ d =>
          right
          exact ⟨d, hd, by simpa using hg, hp2, by omega⟩
    · rw [if_neg hpar, ih]
      constructor
      · rintro ⟨d, hd, hg, hp2, rfl⟩
        exact ⟨d + 1, hd, by simpa using hg, hp2, by omega⟩
      · rintro ⟨d, hd, hg, hp2, rfl⟩
        cases d with
        | zero =>
          simp only [List.getElem?_cons_zero] at hg
          have : hd = h := by injection hg with he; exact he.symm
          subst this
          exact absurd hp2 hpar
        | succ d =>
          exact ⟨d, hd, by simpa using hg, hp2, by omega⟩

lemma childIdxs_mem (headers : List HeaderNode) (i j : Nat) :
    j ∈ childIdxs headers i ↔
      ∃ hj, headers[j]? = some hj ∧ hj.parent = some i := by
  unfold childIdxs
  rw [childIdxsAux_mem]
  constructor
  · rintro ⟨d, hd, hg, hp, rfl⟩
    exact ⟨hd, by simpa using hg, hp⟩
  · rintro ⟨hj, hg, hp⟩
    exact ⟨j, hj, hg, hp, by omega⟩

lemma ancestorLines_succ (headers : List HeaderNode) (fuel i : Nat) :
    ancestorLines headers (fuel + 1) i =
      match headers[i]? with
      | none => []
      | some h =>
        h.line ::
          (match h.parent with
           | none => []
           | some p => ancestorLines headers fuel p) := rfl

lemma descLines_succ (headers : List HeaderNode) (fuel i : Nat) :
    descLines headers (fuel + 1) i =
      match headers[i]? with
      | none => []
      | some h =>
        h.line :: ((childIdxs headers i).map (descLines headers fuel)).flatten :=
  rfl


lemma mem_ancestorLines {headers : List HeaderNode} (H : HeadersOK headers) :
    ∀ (fuel i : Nat), i < fuel → i < headers.length → ∀ x,
      (x ∈ ancestorLines headers fuel i ↔
        ∃ j hj, headers[j]? = some hj ∧ Anc headers i j ∧ hj.line = x) := by
  intro fuel
  induction fuel with
  | zero => intro i hif; omega
  | succ n ih =>
    intro i hif hil x
    have hgi := List.getElem?_eq_getElem hil
    rw [ancestorLines_succ, hgi]
    dsimp only
    cases hpar : headers[i].parent with
    | none =>
      rw [List.mem_singleton]
      constructor
      · intro hx
        exact ⟨i, headers[i], hgi, Anc.refl i, hx.symm⟩
      · rintro ⟨j, hj, hgj, hanc, hline⟩
        cases hanc with
        | refl =>
          rw [hgi] at hgj
          have : hj = headers[i] := Option.some.inj hgj.symm
          subst this
          exact hline.symm
        | step hg hp rest =>
          rw [hgi] at hg
          have : _ = headers[i] := Option.some.inj hg.symm
          subst this
          rw [hpar] at hp
          cases hp
    | some p =>
      have hpfacts := parent_facts H hgi hpar
      obtain ⟨hpi, hpn, hgp, -⟩ := hpfacts
      rw [List.mem_cons, ih p (by omega) (getElem?_some_lt hgp) x]
      constructor
      · rintro (hx | ⟨j, hj, hgj, hanc, hline⟩)
        · exact ⟨i, headers[i], hgi, Anc.refl i, hx.symm⟩
        · exact ⟨j, hj, hgj, Anc.step hgi hpar hanc, hline⟩
      · rintro ⟨j, hj, hgj, hanc, hline⟩
        cases hanc with
        | refl =>
          left
          rw [hgi] at hgj
          have : hj = headers[i] := Option.some.inj hgj.symm
          subst this
          exact hline.symm
        | step hg hp rest =>
          right
          rw [hgi] at hg
          have he : _ = headers[i] := Option.some.inj hg.symm
          subst he
          rw [hpar] at hp
          have he2 := Option.some.inj hp
          subst he2
          exact ⟨j, hj, hgj, rest, hline⟩

lemma mem_descLines {headers : List HeaderNode} (H : HeadersOK headers) :
    ∀ (fuel f : Nat), f < headers.length → headers.length - f ≤ fuel → ∀ x,
      (x ∈ descLines headers fuel f ↔
        ∃ j hj, headers[j]? = some hj ∧ Anc headers j f ∧ hj.line = x) := by
  intro fuel
  induction fuel with
  | zero => intro f hf hfuel; omega
  | succ n ih =>
    intro f hf hfuel x
    have hgf := List.getElem?_eq_getElem hf
    rw [descLines_succ, hgf]
    dsimp only
    rw [List.mem_cons]
    constructor
    · rintro (hx | hx)
      · exact ⟨f, headers[f], hgf, Anc.refl f, hx.symm⟩
      · rw [List.mem_flatten] at hx
        obtain ⟨lsub, hlsub, hxin⟩ := hx
        rw [List.mem_map] at hlsub
        obtain ⟨c, hcmem, rfl⟩ := hlsub
        rw [childIdxs_mem] at hcmem
        obtain ⟨hc, hgc, hpc⟩ := hcmem
        have hfc : f < c := (parent_facts H hgc hpc).1
        have hcl : c < headers.length := getElem?_some_lt hgc
        obtain ⟨j, hj, hgj, hanc, hline⟩ := (ih c hcl (by omega) x).mp hxin
        exact ⟨j, hj, hgj,
          anc_trans hanc (Anc.step hgc hpc (Anc.refl f)), hline⟩
    · rintro ⟨j, hj, hgj, hanc, hline⟩
      rcases anc_child_decomp hanc with he | ⟨c, hc, hgc, hpc, hanc2⟩
      · left
        rw [he] at hgj
        rw [hgf] at hgj
        have h5 := Option.some.inj hgj
        rw [h5]
        exact hline.symm
      · right
        rw [List.mem_flatten]
        have hfc : f < c := (parent_facts H hgc hpc).1
        have hcl : c < headers.length := getElem?_some_lt hgc
        refine ⟨descLines headers n c, ?_, ?_⟩
        · rw [List.mem_map]
          exact ⟨c, (childIdxs_mem _ _ _).mpr ⟨hc, hgc, hpc⟩, rfl⟩
        · exact (ih c hcl (by omega) x).mpr ⟨j, hj, hgj, hanc2, hline⟩

lemma mem_unfoldSet {headers : List HeaderNode} (H : HeadersOK headers)
    {f : Nat} (hf : f < headers.length) (x : Nat) :
    x ∈ unfoldSet headers f ↔
      ∃ j hj, headers[j]? = some hj ∧ hj.line = x ∧
        (Anc headers f j ∨ Anc headers j f) := by
  unfold unfoldSet
  rw [List.mem_append, mem_ancestorLines H headers.length f hf hf x,
    mem_descLines H headers.length f hf (by omega) x]
  constructor
  · rintro (⟨j, hj, hg, ha, hl⟩ | ⟨j, hj, hg, ha, hl⟩)
    · exact ⟨j, hj, hg, hl, Or.inl ha⟩
    · exact ⟨j, hj, hg, hl, Or.inr ha⟩
  · rintro ⟨j, hj, hg, hl, ha | ha⟩
    · exact Or.inl ⟨j, hj, hg, ha, hl⟩
    · exact Or.inr ⟨j, hj, hg, ha, hl⟩

lemma locAux_succ (headers : List HeaderNode) (cursor k : Nat) :
    locAux headers cursor (k + 1) =
      match headers[k]? with
      | none => none
      | some h => if h.line ≤ cursor then some k else locAux headers cursor k :=
  rfl

lemma locAux_spec (headers : List HeaderNode) (cursor : Nat) :
    ∀ m, m ≤ headers.length →
      ((∀ i, locAux headers cursor m = some i →
        i < m ∧ ∃ h, headers[i]? = some h ∧ h.line ≤ cursor ∧
          ∀ (k : Nat) (hk : HeaderNode), i < k → k < m → headers[k]? = some hk →
            cursor < hk.line) ∧
      (locAux headers cursor m = none ↔
        ∀ (k : Nat) (hk : HeaderNode), k < m → headers[k]? = some hk →
          cursor < hk.line)) := by
  intro m
  induction m with
  | zero =>
    intro _
    refine ⟨fun i h => absurd h (by simp [locAux]), ?_⟩
    constructor
    · intro _ k hk hkm _; omega
    · intro _; rfl
  | succ n ih =>
    intro hm
    have hnl : n < headers.length := by omega
    have hg := List.getElem?_eq_getElem hnl
    obtain ⟨ihs, ihn⟩ := ih (by omega)
    constructor
    · intro i hi
      rw [locAux_succ, hg] at hi
      dsimp only at hi
      by_cases hline : headers[n].line ≤ cursor
      · rw [if_pos hline] at hi
        have he : n = i := Option.some.inj hi
        subst he
        refine ⟨Nat.lt_succ_self n, headers[n], hg, hline, ?_⟩
        intro k hk h1 h2 _
        omega
      · rw [if_neg hline] at hi
        obtain ⟨h1, h, h2, h3, h4⟩ := ihs i hi
        refine ⟨by omega, h, h2, h3, ?_⟩
        intro k hk hik hkm hgk
        by_cases hkn : k = n
        · subst hkn
          rw [hgk] at hg
          have he : headers[k] = hk := Option.some.inj hg.symm
          rw [← he]
          omega
        · exact h4 k hk hik (by omega) hgk
    · rw [locAux_succ, hg]
      dsimp only
      by_cases hline : headers[n].line ≤ cursor
      · rw [if_pos hline]
        constructor
        · intro h; cases h
        · intro hall
          have := hall n headers[n] (Nat.lt_succ_self n) hg
          omega
      · rw [if_neg hline]
        rw [ihn]
        constructor
        · intro hall k hk hkm hgk
          by_cases hkn : k = n
          · subst hkn
            rw [hgk] at hg
            have he : headers[k] = hk := Option.some.inj hg.symm
            rw [← he]
            omega
          · exact hall k hk (by omega) hgk
        · intro hall k hk hkm hgk
          exact hall k hk (by omega) hgk

lemma findCurrentIdx_some {headers : List HeaderNode} {cursor i : Nat}
    (h : findCurrentIdx headers cursor = some i) :
    i < headers.length ∧ ∃ hi, headers[i]? = some hi ∧ hi.line ≤ cursor ∧
      ∀ (k : Nat) (hk : HeaderNode), i < k → headers[k]? = some hk →
        cursor < hk.line := by
  unfold findCurrentIdx at h
  obtain ⟨h1, hi, h2, h3, h4⟩ :=
    (locAux_spec headers cursor headers.length (le_refl _)).1 i h
  refine ⟨h1, hi, h2, h3, ?_⟩
  intro k hk hik hgk
  exact h4 k hk hik (getElem?_some_lt hgk) hgk

lemma findCurrentIdx_none {headers : List HeaderNode} {cursor : Nat} :
    findCurrentIdx headers cursor = none ↔
      ∀ (k : Nat) (hk : HeaderNode), headers[k]? = some hk →
        cursor < hk.line := by
  unfold findCurrentIdx
  rw [(locAux_spec headers cursor headers.length (le_refl _)).2]
  constructor
  · intro hall k hk hgk
    exact hall k hk (getElem?_some_lt hgk) hgk
  · intro hall k hk _ hgk
    exact hall k hk hgk

lemma drop_cons_facts {headers : List HeaderNode} {k : Nat} {h : HeaderNode}
    {t : List HeaderNode} (hd : headers.drop k = h :: t) :
    headers[k]? = some h ∧ headers.drop (k + 1) = t := by
  constructor
  · have h0 := List.getElem?_drop headers k 0
    rw [hd] at h0
    simpa using h0.symm
  · have h0 := List.drop_drop 1 k headers
    rw [hd] at h0
    simp only [List.drop_succ_cons, List.drop_zero] at h0
    exact h0.symm

lemma scanNextList_cons (lvl : Nat) (par : Option Nat) (k : Nat)
    (h : HeaderNode) (t : List HeaderNode) :
    scanNextList lvl par k (h :: t) =
      if h.level = lvl ∧ h.parent = par then some k
      else if h.level ≤ lvl then none
      else scanNextList lvl par (k + 1) t := rfl

lemma scanNext_spec (headers : List HeaderNode) (lvl : Nat) (par : Option Nat) :
    ∀ (t : List HeaderNode) (k : Nat), headers.drop k = t →
      ((∀ j, scanNextList lvl par k t = some j →
        k ≤ j ∧ ∃ hj, headers[j]? = some hj ∧ hj.level = lvl ∧ hj.parent = par ∧
          ∀ (m : Nat) (hm : HeaderNode), k ≤ m → m < j → headers[m]? = some hm →
            lvl < hm.level) ∧
      (∀ (j : Nat) (hj : HeaderNode), headers[j]? = some hj → k ≤ j →
        hj.level ≤ lvl → ¬(hj.level = lvl ∧ hj.parent = par) →
        (∀ (m : Nat) (hm : HeaderNode), k ≤ m → m < j → headers[m]? = some hm →
          lvl < hm.level) →
        scanNextList lvl par k t = none)) := by
  intro t
  induction t with
  | nil =>
    intro k hd
    refine ⟨fun j h => absurd h (by simp [scanNextList]), ?_⟩
    intro j hj hgj hkj _ _ _
    have hlt := getElem?_some_lt hgj
    have hlen := List.drop_eq_nil_iff.mp hd
    omega
  | cons h t ih =>
    intro k hd
    obtain ⟨hgk, hdt⟩ := drop_cons_facts hd
    by_cases hsib : h.level = lvl ∧ h.parent = par
    · constructor
      · intro j hj2
        rw [scanNextList_cons, if_pos hsib] at hj2
        have he : k = j := Option.some.inj hj2
        subst he
        refine ⟨le_refl k, h, hgk, hsib.1, hsib.2, ?_⟩
        intro m hm h1 h2 _
        omega
      · intro j hj hgj hkj hlev hnsib hall
        by_cases hjk : j = k
        · subst hjk
          rw [hgj] at hgk
          have he : hj = h := Option.some.inj hgk
          rw [← he] at hsib
          exact absurd hsib hnsib
        · have := hall k h (le_refl k) (by omega) hgk
          omega
    · rw [scanNextList_cons, if_neg hsib]
      by_cases hle : h.level ≤ lvl
      · rw [if_pos hle]
        refine ⟨fun j hj2 => absurd hj2 (by simp), ?_⟩
        intro _ _ _ _ _ _ _
        rfl
      · rw [if_neg hle]
        obtain ⟨ihs, ihn⟩ := ih (k + 1) hdt
        constructor
        · intro j hj2
          obtain ⟨h1, hj, h2, h3, h4, h5⟩ := ihs j hj2
          refine ⟨by omega, hj, h2, h3, h4, ?_⟩
          intro m hm hkm hmj hgm
          by_cases hmk : m = k
          · subst hmk
            rw [hgm] at hgk
            have he : hm = h := Option.some.inj hgk
            rw [he]
            omega
          · exact h5 m hm (by omega) hmj hgm
        · intro j hj hgj hkj hlev hnsib hall
          by_cases hjk : j = k
          · subst hjk
            rw [hgj] at hgk
            have he : hj = h := Option.some.inj hgk
            rw [he] at hlev
            omega
          · exact ihn j hj hgj (by omega) hlev hnsib
              (fun m hm h1 h2 h3 => hall m hm (by omega) h2 h3)

lemma scanPrevAux_succ (headers : List HeaderNode) (lvl : Nat)
    (par : Option Nat) (k : Nat) :
    scanPrevAux headers lvl par (k + 1) =
      match headers[k]? with
      | none => none
      | some h =>
        if h.level = lvl ∧ h.parent = par then some k
        else if h.level ≤ lvl then none
        else scanPrevAux headers lvl par k := rfl

lemma scanPrev_spec (headers : List HeaderNode) (lvl : Nat) (par : Option Nat) :
    ∀ k, k ≤ headers.length →
      ((∀ j, scanPrevAux headers lvl par k = some j →
        j < k ∧ ∃ hj, headers[j]? = some hj ∧ hj.level = lvl ∧ hj.parent = par ∧
          ∀ (m : Nat) (hm : HeaderNode), j < m → m < k → headers[m]? = some hm →
            lvl < hm.level) ∧
      (∀ (j : Nat) (hj : HeaderNode), headers[j]? = some hj → j < k →
        hj.level ≤ lvl → ¬(hj.level = lvl ∧ hj.parent = par) →
        (∀ (m : Nat) (hm : HeaderNode), j < m → m < k → headers[m]? = some hm →
          lvl < hm.level) →
        scanPrevAux headers lvl par k = none)) := by
  intro k
  induction k with
  | zero =>
    intro _
    refine ⟨fun j h => absurd h (by simp [scanPrevAux]), ?_⟩
    intro j hj _ hjk _ _ _
    omega
  | succ n ih =>
    intro hmb
    have hnl : n < headers.length := by omega
    have hg := List.getElem?_eq_getElem hnl
    obtain ⟨ihs, ihn⟩ := ih (by omega)
    by_cases hsib : headers[n].level = lvl ∧ headers[n].parent = par
    · constructor
      · intro j hj2
        rw [scanPrevAux_succ, hg] at hj2
        dsimp only at hj2
        rw [if_pos hsib] at hj2
        have he : n = j := Option.some.inj hj2
        subst he
        refine ⟨Nat.lt_succ_self n, headers[n], hg, hsib.1, hsib.2, ?_⟩
        intro m hm2 h1 h2 _
        omega
      · intro j hj hgj hjk hlev hnsib hall
        by_cases hjn : j = n
        · subst hjn
          rw [hgj] at hg
          have he : headers[j] = hj := Option.some.inj hg.symm
          rw [he] at hsib
          exact absurd hsib hnsib
        · have := hall n headers[n] (by omega) (Nat.lt_succ_self n) hg
          omega
    · rw [scanPrevAux_succ, hg]
      dsimp only
      rw [if_neg hsib]
      by_cases hle : headers[n].level ≤ lvl
      · rw [if_pos hle]
        refine ⟨fun j hj2 => absurd hj2 (by simp), ?_⟩
        intro _ _ _ _ _ _ _
        rfl
      · rw [if_neg hle]
        constructor
        · intro j hj2
          obtain ⟨h1, hj, h2, h3, h4, h5⟩ := ihs j hj2
          refine ⟨by omega, hj, h2, h3, h4, ?_⟩
          intro m hm hjm hmk hgm
          by_cases hmn : m = n
          · subst hmn
            rw [hgm] at hg
            have he : headers[m] = hm := Option.some.inj hg.symm
            rw [← he]
            omega
          · exact h5 m hm hjm (by omega) hgm
        · intro j hj hgj hjk hlev hnsib hall
          by_cases hjn : j = n
          · subst hjn
            rw [hgj] at hg
            have he : headers[j] = hj := Option.some.inj hg.symm
            rw [← he] at hlev
            omega
          · exact ihn j hj hgj (by omega) hlev hnsib
              (fun m hm h1 h2 h3 => hall m hm h1 (by omega) h3)

lemma findNextSibling_some {headers : List HeaderNode} {c s : Nat}
    {cur : HeaderNode} (hgc : headers[c]? = some cur)
    (h : findNextSibling headers c = some s) :
    c < s ∧ ∃ hs, headers[s]? = some hs ∧ hs.level = cur.level ∧
      hs.parent = cur.parent ∧
      ∀ (m : Nat) (hm : HeaderNode), c < m → m < s → headers[m]? = some hm →
        cur.level < hm.level := by
  unfold findNextSibling at h
  rw [hgc] at h
  dsimp only at h
  obtain ⟨h1, hs, h2, h3, h4, h5⟩ :=
    (scanNext_spec headers cur.level cur.parent (headers.drop (c + 1))
      (c + 1) rfl).1 s h
  refine ⟨by omega, hs, h2, h3, h4, ?_⟩
  intro m hm hcm hms hgm
  exact h5 m hm (by omega) hms hgm

lemma findNextSibling_stop {headers : List HeaderNode} {c : Nat}
    {cur : HeaderNode} (hgc : headers[c]? = some cur) :
    ∀ (j : Nat) (hj : HeaderNode), headers[j]? = some hj → c < j →
      hj.level ≤ cur.level →
      ¬(hj.level = cur.level ∧ hj.parent = cur.parent) →
      (∀ (m : Nat) (hm : HeaderNode), c < m → m < j → headers[m]? = some hm →
        cur.level < hm.level) →
      findNextSibling headers c = none := by
  intro j hj hgj hcj hlev hnsib hall
  unfold findNextSibling
  rw [hgc]
  dsimp only
  exact (scanNext_spec headers cur.level cur.parent (headers.drop (c + 1))
      (c + 1) rfl).2 j hj hgj (by omega) hlev hnsib
    (fun m hm h1 h2 h3 => hall m hm (by omega) h2 h3)

lemma findPrevSibling_some {headers : List HeaderNode} {c s : Nat}
    {cur : HeaderNode} (hgc : headers[c]? = some cur)
    (h : findPrevSibling headers c = some s) :
    s < c ∧ ∃ hs, headers[s]? = some hs ∧ hs.level = cur.level ∧
      hs.parent = cur.parent ∧
      ∀ (m : Nat) (hm : HeaderNode), s < m → m < c → headers[m]? = some hm →
        cur.level < hm.level := by
  unfold findPrevSibling at h
  rw [hgc] at h
  dsimp only at h
  exact (scanPrev_spec headers cur.level cur.parent c
    (le_of_lt (getElem?_some_lt hgc))).1 s h

lemma findPrevSibling_stop {headers : List HeaderNode} {c : Nat}
    {cur : HeaderNode} (hgc : headers[c]? = some cur) :
    ∀ (j : Nat) (hj : HeaderNode), headers[j]? = some hj → j < c →
      hj.level ≤ cur.level →
      ¬(hj.level = cur.level ∧ hj.parent = cur.parent) →
      (∀ (m : Nat) (hm : HeaderNode), j < m → m < c → headers[m]? = some hm →
        cur.level < hm.level) →
      findPrevSibling headers c = none := by
  intro j hj hgj hjc hlev hnsib hall
  unfold findPrevSibling
  rw [hgc]
  dsimp only
  exact (scanPrev_spec headers cur.level cur.parent c
    (le_of_lt (getElem?_some_lt hgc))).2 j hj hgj hjc hlev hnsib hall

lemma focusStep_fields (fb : List String → Nat → Option (Nat × Nat))
    (sc : List String → Nat → Nat) (s : EditorState) :
    (focusStep fb sc s).lines = s.lines ∧
      (focusStep fb sc s).cursorLine = s.cursorLine := by
  unfold focusStep
  cases hfc : findCurrentIdx (parseHeaders s.lines) s.cursorLine with
  | none => exact ⟨rfl, rfl⟩
  | some c =>
    dsimp only
    cases hgc : (parseHeaders s.lines)[c]? with
    | none => exact ⟨rfl, rfl⟩
    | some cur => exact ⟨rfl, rfl⟩

lemma focusStep_no_current (fb : List String → Nat → Option (Nat × Nat))
    (sc : List String → Nat → Nat) (s : EditorState)
    (h : findCurrentIdx (parseHeaders s.lines) s.cursorLine = none) :
    focusStep fb sc s = s := by
  unfold focusStep
  rw [h]

lemma nextStep_no_current (fb : List String → Nat → Option (Nat × Nat))
    (sc : List String → Nat → Nat) (s : EditorState)
    (h : findCurrentIdx (parseHeaders s.lines) s.cursorLine = none) :
    nextStep fb sc s = s := by
  unfold nextStep
  rw [h]

lemma prevStep_no_current (fb : List String → Nat → Option (Nat × Nat))
    (sc : List String → Nat → Nat) (s : EditorState)
    (h : findCurrentIdx (parseHeaders s.lines) s.cursorLine = none) :
    prevStep fb sc s = s := by
  unfold prevStep
  rw [h]

lemma nextStep_no_sibling (fb : List String → Nat → Option (Nat × Nat))
    (sc : List String → Nat → Nat) (s : EditorState) (c : Nat)
    (h : findCurrentIdx (parseHeaders s.lines) s.cursorLine = some c)
    (hsib : findNextSibling (parseHeaders s.lines) c = none) :
    nextStep fb sc s = s := by
  unfold nextStep
  rw [h]
  dsimp only
  rw [hsib]

lemma prevStep_no_sibling (fb : List String → Nat → Option (Nat × Nat))
    (sc : List String → Nat → Nat) (s : EditorState) (c : Nat)
    (h : findCurrentIdx (parseHeaders s.lines) s.cursorLine = some c)
    (hsib : findPrevSibling (parseHeaders s.lines) c = none) :
    prevStep fb sc s = s := by
  unfold prevStep
  rw [h]
  dsimp only
  rw [hsib]

/-- The parent relation asserted by the specification data model: every
parent is the closest preceding heading of strictly smaller level, and a
parent is absent exactly when no preceding heading has a smaller level.
Written from the claim wording, for comparison with the parser. -/
def ClosestSmallerParent (headers : List HeaderNode) : Prop :=
  ∀ (j : Nat) (h : HeaderNode), headers[j]? = some h →
    (∀ p, h.parent = some p →
      ∃ hp, headers[p]? = some hp ∧ hp.line < h.line ∧ hp.level < h.level ∧
        ∀ (k : Nat) (hk : HeaderNode), headers[k]? = some hk →
          hk.line < h.line → hk.level < h.level → hk.line ≤ hp.line) ∧
    (h.parent = none →
      ∀ (k : Nat) (hk : HeaderNode), headers[k]? = some hk →
        ¬(hk.line < h.line ∧ hk.level < h.level))

/-- Claim C1 counterexample: on the document with lines "## b", "# a",
"### c" the parser records the stale level-2 heading at line 0 as the
parent of the level-3 heading, although the closest preceding heading of
smaller level is the level-1 heading at line 1.  The parent lookup scans
lastByLevel downward from level - 1 and hits the level-2 entry first, so
the parsed parent is not the closest preceding smaller-level heading. -/
theorem claim_C1_counterexample :
    ¬ ClosestSmallerParent (parseHeaders ["## b", "# a", "### c"]) := by
  intro H
  have hparse : parseHeaders ["## b", "# a", "### c"] =
      [⟨0, 2, none⟩, ⟨1, 1, none⟩, ⟨2, 3, some 0⟩] := by decide
  obtain ⟨hsome, -⟩ := H 2 ⟨2, 3, some 0⟩ (by rw [hparse]; rfl)
  obtain ⟨hp, hgp, hline, hlev, hclosest⟩ := hsome 0 rfl
  have h1 : (parseHeaders ["## b", "# a", "### c"])[1]? = some ⟨1, 1, none⟩ := by
    rw [hparse]; rfl
  have hle := hclosest 1 ⟨1, 1, none⟩ h1 (by decide) (by decide)
  rw [hparse] at hgp
  simp only [List.getElem?_cons_zero] at hgp
  have hhp : hp = ⟨0, 2, none⟩ := by injection hgp with he; exact he.symm
  subst hhp
  exact absurd hle (by decide)

/-- Claim C1 (amended): for every parsed node, a recorded parent is an
earlier node of strictly smaller level; it is the most recent earlier
node at its own level, and no earlier node carries a level strictly
between the parent level and the node level (the parent is the
lastByLevel entry for the greatest level below the node's that occurs
among earlier nodes — not necessarily the closest preceding smaller-level
node).  The parent is absent exactly when every earlier node has level at
least the node's own level. -/
theorem claim_C1_amended (lines : List String) (j : Nat) (h : HeaderNode)
    (hg : (parseHeaders lines)[j]? = some h) :
    (∀ p, h.parent = some p →
      p < j ∧ ∃ hp, (parseHeaders lines)[p]? = some hp ∧ hp.level < h.level ∧
        (∀ (k : Nat) (hk : HeaderNode), (parseHeaders lines)[k]? = some hk →
          p < k → k < j → hk.level ≠ hp.level) ∧
        (∀ (k : Nat) (hk : HeaderNode), (parseHeaders lines)[k]? = some hk →
          k < j → ¬(hp.level < hk.level ∧ hk.level < h.level))) ∧
    (h.parent = none ↔
      ∀ (k : Nat) (hk : HeaderNode), (parseHeaders lines)[k]? = some hk →
        k < j → h.level ≤ hk.level) := by
  obtain ⟨h1, h2, h3⟩ := parse_headersOK lines j h hg
  refine ⟨h2, h3, ?_⟩
  intro hall
  cases hpar : h.parent with
  | none => rfl
  | some p =>
    obtain ⟨hpj, hp, hgp, hlt, -, -⟩ := h2 p hpar
    exact absurd (hall p hp hgp hpj) (by omega)

/-- Witness for claim C1: the parsed level-2 heading of a two-line
document has a recorded parent, so the amended theorem's parent clause
applies with a satisfiable hypothesis. -/
theorem claim_C1_witness :
    parseHeaders ["# a", "## b"] = [⟨0, 1, none⟩, ⟨1, 2, some 0⟩] ∧ 0 < 1 :=
  ⟨by decide,
    ((claim_C1_amended ["# a", "## b"] 1 ⟨1, 2, some 0⟩ (by decide)).1
      0 rfl).1⟩

/-- Claim C7: whenever a parsed node records a parent, the parent's level
is strictly smaller than the node's, and a node at level 1 never records
a parent. -/
theorem claim_C7 (lines : List String) :
    (∀ (j p : Nat) (h hp : HeaderNode), (parseHeaders lines)[j]? = some h →
      h.parent = some p → (parseHeaders lines)[p]? = some hp →
      hp.level < h.level) ∧
    (∀ (j : Nat) (h : HeaderNode), (parseHeaders lines)[j]? = some h →
      h.level = 1 → h.parent = none) := by
  constructor
  · intro j p h hp hg hpar hgp
    obtain ⟨-, hpn, hgp2, hlt⟩ := parent_facts (parse_headersOK lines) hg hpar
    rw [hgp2] at hgp
    have he := Option.some.inj hgp
    rw [← he]
    exact hlt
  · intro j h hg hl1
    cases hpar : h.parent with
    | none => rfl
    | some p =>
      obtain ⟨-, hpn, hgp2, hlt⟩ := parent_facts (parse_headersOK lines) hg hpar
      have hp1 : 1 ≤ hpn.level := (parse_headersOK lines p hpn hgp2).1
      omega

/-- Witness for claim C7: the parent of the level-3 heading in a concrete
document has level 1, strictly below 3. -/
theorem claim_C7_witness :
    parseHeaders ["# a", "### b"] = [⟨0, 1, none⟩, ⟨1, 3, some 0⟩] ∧
      (1 : Nat) < 3 :=
  ⟨by decide,
    (claim_C7 ["# a", "### b"]).1 1 0 ⟨1, 3, some 0⟩ ⟨0, 1, none⟩
      (by decide) rfl (by decide)⟩

/-- Claim C5: the parser emits one node per line matching the heading
pattern and none for other lines (first conjunct, with the node carrying
the line number and the marker count); the emitted sequence is strictly
ascending in line number (second conjunct); and a line matches the
pattern with level l exactly when it consists of l marker characters
followed by a whitespace character and anything after (third conjunct). -/
theorem claim_C5 (lines : List String) :
    ((parseHeaders lines).map (fun h => (h.line, h.level)) =
      lines.enum.filterMap
        (fun p => (headingLevel p.2.data).map (fun l => (p.1, l)))) ∧
    (parseHeaders lines).Pairwise (fun a b => a.line < b.line) ∧
    (∀ (cs : List Char) (l : Nat), headingLevel cs = some l ↔
      0 < l ∧ ∃ c cs2, cs = List.replicate l '#' ++ c :: cs2 ∧
        isSpaceJS c = true) := by
  refine ⟨?_, parse_sorted lines, headingLevel_eq_some_iff⟩
  unfold parseHeaders
  rw [parseGo_map]
  simp [List.enum]

/-- Claim C4: the heading locator returns a node at or before the cursor
whose line is greatest among headings at or before the cursor, and
returns none exactly when every heading lies after the cursor. -/
theorem claim_C4 (lines : List String) (cursor : Nat) :
    (∀ i, findCurrentIdx (parseHeaders lines) cursor = some i →
      ∃ hi, (parseHeaders lines)[i]? = some hi ∧ hi.line ≤ cursor ∧
        ∀ (k : Nat) (hk : HeaderNode), (parseHeaders lines)[k]? = some hk →
          hk.line ≤ cursor → hk.line ≤ hi.line) ∧
    (findCurrentIdx (parseHeaders lines) cursor = none ↔
      ∀ (k : Nat) (hk : HeaderNode), (parseHeaders lines)[k]? = some hk →
        cursor < hk.line) := by
  constructor
  · intro i hi
    obtain ⟨hlen, hih, hg, hle, hafter⟩ := findCurrentIdx_some hi
    refine ⟨hih, hg, hle, ?_⟩
    intro k hk hgk hkle
    rcases Nat.lt_trichotomy k i with hki | he | hik
    · exact le_of_lt (sorted_line_lt (parse_sorted lines) hgk hg hki)
    · subst he
      rw [hgk] at hg
      have he2 := Option.some.inj hg
      rw [he2]
    · exact absurd hkle (by have := hafter k hk hik hgk; omega)
  · exact findCurrentIdx_none

/-- Witness for claim C4: with the cursor on line 1 of a document whose
only headings are at lines 0 and 2, the locator returns the heading at
line 0, and its line bounds every heading line at or before the cursor. -/
theorem claim_C4_witness :
    findCurrentIdx (parseHeaders ["# a", "b", "# c"]) 1 = some 0 ∧
      findCurrentIdx (parseHeaders ["x"]) 0 = none :=
  ⟨by decide,
    (claim_C4 ["x"] 0).2.mpr (by
      intro k hk hg
      rw [(by decide : parseHeaders ["x"] = ([] : List HeaderNode))] at hg
      simp at hg)⟩

/-- Claim C3: the sibling scan, in either direction, returns the first
candidate with the current node's level and parent, with every strictly
intervening node of strictly greater level (so it never selects a node
with a different parent and never skips an equal-or-lower-level node);
and it returns none whenever the first node met whose level is at most
the current level is not such an exact sibling. -/
theorem claim_C3 (headers : List HeaderNode) (c : Nat) (cur : HeaderNode)
    (hgc : headers[c]? = some cur) :
    ((∀ j, findNextSibling headers c = some j →
      c < j ∧ ∃ hj, headers[j]? = some hj ∧ hj.level = cur.level ∧
        hj.parent = cur.parent ∧
        ∀ (m : Nat) (hm : HeaderNode), c < m → m < j → headers[m]? = some hm →
          cur.level < hm.level) ∧
    (∀ (j : Nat) (hj : HeaderNode), headers[j]? = some hj → c < j →
      hj.level ≤ cur.level →
      ¬(hj.level = cur.level ∧ hj.parent = cur.parent) →
      (∀ (m : Nat) (hm : HeaderNode), c < m → m < j → headers[m]? = some hm →
        cur.level < hm.level) →
      findNextSibling headers c = none)) ∧
    ((∀ j, findPrevSibling headers c = some j →
      j < c ∧ ∃ hj, headers[j]? = some hj ∧ hj.level = cur.level ∧
        hj.parent = cur.parent ∧
        ∀ (m : Nat) (hm : HeaderNode), j < m → m < c → headers[m]? = some hm →
          cur.level < hm.level) ∧
    (∀ (j : Nat) (hj : HeaderNode), headers[j]? = some hj → j < c →
      hj.level ≤ cur.level →
      ¬(hj.level = cur.level ∧ hj.parent = cur.parent) →
      (∀ (m : Nat) (hm : HeaderNode), j < m → m < c → headers[m]? = some hm →
        cur.level < hm.level) →
      findPrevSibling headers c = none)) := by
  refine ⟨⟨?_, findNextSibling_stop hgc⟩, ?_, findPrevSibling_stop hgc⟩
  · intro j hj2
    exact findNextSibling_some hgc hj2
  · intro j hj2
    exact findPrevSibling_some hgc hj2

/-- Witness for claim C3: from the level-2 heading at line 1, the next
sibling is the level-2 heading at line 3, skipping the deeper level-3
heading in between. -/
theorem claim_C3_witness :
    findNextSibling (parseHeaders ["# a", "## b", "### c", "## d"]) 1 =
      some 3 ∧ 1 < 3 :=
  ⟨by decide,
    ((claim_C3 (parseHeaders ["# a", "## b", "### c", "## d"]) 1
      ⟨1, 2, some 0⟩ (by decide)).1.1 3 (by decide)).1⟩

/-- Claim C2: a line belongs to the computed unfold set exactly when it
is the line of a heading that is the focus node itself, one of its
ancestors along parent links, or one of its descendants; and the line of
any heading that is none of these is not in the set. -/
theorem claim_C2 (lines : List String) (f : Nat)
    (hf : f < (parseHeaders lines).length) :
    (∀ x, x ∈ unfoldSet (parseHeaders lines) f ↔
      ∃ j hj, (parseHeaders lines)[j]? = some hj ∧ hj.line = x ∧
        (Anc (parseHeaders lines) f j ∨ Anc (parseHeaders lines) j f)) ∧
    (∀ (k : Nat) (hk : HeaderNode), (parseHeaders lines)[k]? = some hk →
      ¬(Anc (parseHeaders lines) f k ∨ Anc (parseHeaders lines) k f) →
      hk.line ∉ unfoldSet (parseHeaders lines) f) := by
  constructor
  · exact fun x => mem_unfoldSet (parse_headersOK lines) hf x
  · intro k hk hgk hnot hmem
    obtain ⟨j, hj, hgj, hline, hanc⟩ :=
      (mem_unfoldSet (parse_headersOK lines) hf hk.line).mp hmem
    have he : j = k := sorted_line_inj (parse_sorted lines) hgj hgk hline
    subst he
    exact hnot hanc

/-- Witness for claim C2: the focus node's own line is in its unfold set. -/
theorem claim_C2_witness :
    1 ∈ unfoldSet (parseHeaders ["# a", "## b", "# c"]) 1 :=
  ((claim_C2 ["# a", "## b", "# c"] 1 (by decide)).1 1).mpr
    ⟨1, ⟨1, 2, some 0⟩, by decide, rfl, Or.inl (Anc.refl 1)⟩

/-- Claim C6 counterexample: in the parse of "## b", "# a", "### c", the
node at index 2 is a descendant of the node at index 0, yet the node at
index 1 lies strictly between them in document order with level 1 ≤ 2
and is not itself a descendant of node 0.  So the descendant set of
node 0 is not a contiguous run immediately following it, and a node
separated from node 0 by an intervening heading of equal-or-lower level
is nonetheless one of its descendants. -/
theorem claim_C6_counterexample :
    Anc (parseHeaders ["## b", "# a", "### c"]) 2 0 ∧
    (parseHeaders ["## b", "# a", "### c"])[1]? = some ⟨1, 1, none⟩ ∧
    (parseHeaders ["## b", "# a", "### c"])[0]? = some ⟨0, 2, none⟩ ∧
    (1 : Nat) ≤ 2 ∧
    ¬ Anc (parseHeaders ["## b", "# a", "### c"]) 1 0 := by
  have hparse : parseHeaders ["## b", "# a", "### c"] =
      [⟨0, 2, none⟩, ⟨1, 1, none⟩, ⟨2, 3, some 0⟩] := by decide
  refine ⟨@Anc.step (parseHeaders ["## b", "# a", "### c"]) 2 0 0
      ⟨2, 3, some 0⟩ (by decide) rfl (Anc.refl 0), by decide, by decide,
    by decide, ?_⟩
  intro hanc
  cases hanc with
  | step hg hp rest =>
    rw [hparse] at hg
    simp only [List.getElem?_cons_succ, List.getElem?_cons_zero] at hg
    have he := Option.some.inj hg
    rw [← he] at hp
    simp at hp

/-- Claim C6 (amended): every strict descendant of a parsed node follows
it in document order, with strictly greater line and strictly greater
level; the descendant set need not be a contiguous run immediately after
the node, and a node separated from it by an intervening heading of
equal-or-lower level can still be one of its descendants. -/
theorem claim_C6_amended (lines : List String) (j f : Nat)
    (hanc : Anc (parseHeaders lines) j f) (hne : j ≠ f) :
    f < j ∧ ∃ hj hf, (parseHeaders lines)[j]? = some hj ∧
      (parseHeaders lines)[f]? = some hf ∧ hf.level < hj.level ∧
      hf.line < hj.line := by
  rcases anc_strict (parse_headersOK lines) (parse_sorted lines) hanc with
    he | ⟨hlt, hi, hj2, hgi, hgj, hlev, hline⟩
  · exact absurd he hne
  · exact ⟨hlt, hi, hj2, hgi, hgj, hlev, hline⟩

/-- Witness for claim C6: the level-2 heading at index 1 descends from
the level-1 heading at index 0 and strictly follows it. -/
theorem claim_C6_witness :
    parseHeaders ["# a", "## b"] = [⟨0, 1, none⟩, ⟨1, 2, some 0⟩] ∧
      (0 : Nat) < 1 :=
  ⟨by decide,
    (claim_C6_amended ["# a", "## b"] 1 0
      (@Anc.step (parseHeaders ["# a", "## b"]) 1 0 0 ⟨1, 2, some 0⟩
        (by decide) rfl (Anc.refl 0)) (by decide)).1⟩

/-- Claim C8: when no heading lies at or before the cursor, all three
commands leave the editor state entirely unchanged (no fold or unfold,
no scroll, no cursor move), and when a current heading exists but no
sibling does in the requested direction, the sibling commands likewise
leave the state unchanged. -/
theorem claim_C8 (fb : List String → Nat → Option (Nat × Nat))
    (sc : List String → Nat → Nat) (s : EditorState) :
    (findCurrentIdx (parseHeaders s.lines) s.cursorLine = none →
      focusStep fb sc s = s ∧ nextStep fb sc s = s ∧ prevStep fb sc s = s) ∧
    (∀ c, findCurrentIdx (parseHeaders s.lines) s.cursorLine = some c →
      findNextSibling (parseHeaders s.lines) c = none →
      nextStep fb sc s = s) ∧
    (∀ c, findCurrentIdx (parseHeaders s.lines) s.cursorLine = some c →
      findPrevSibling (parseHeaders s.lines) c = none →
      prevStep fb sc s = s) :=
  ⟨fun h => ⟨focusStep_no_current fb sc s h, nextStep_no_current fb sc s h,
      prevStep_no_current fb sc s h⟩,
   fun c h hs => nextStep_no_sibling fb sc s c h hs,
   fun c h hs => prevStep_no_sibling fb sc s c h hs⟩

/-- Witness for claim C8: a document with no heading leaves Focus on
Current Header a no-op, and a document whose single heading has no next
sibling leaves Focus on Next Header a no-op. -/
theorem claim_C8_witness :
    focusStep (fun _ _ => none) (fun _ _ => 0) ⟨["x"], 0, [], 0⟩ =
      ⟨["x"], 0, [], 0⟩ ∧
    nextStep (fun _ _ => none) (fun _ _ => 0) ⟨["# a"], 0, [], 0⟩ =
      ⟨["# a"], 0, [], 0⟩ :=
  ⟨((claim_C8 (fun _ _ => none) (fun _ _ => 0) ⟨["x"], 0, [], 0⟩).1
      (by decide)).1,
   (claim_C8 (fun _ _ => none) (fun _ _ => 0) ⟨["# a"], 0, [], 0⟩).2.1 0
      (by decide) (by decide)⟩

/-- Claim C9: Focus on Current Header leaves the document text and the
cursor line unchanged, so its visible-set decision is the same on the
state it produces as on the state it started from: running it twice
computes an identical unfold set both times. -/
theorem claim_C9 (fb : List String → Nat → Option (Nat × Nat))
    (sc : List String → Nat → Nat) (s : EditorState) :
    (focusStep fb sc s).lines = s.lines ∧
    (focusStep fb sc s).cursorLine = s.cursorLine ∧
    focusVisible (focusStep fb sc s) = focusVisible s := by
  obtain ⟨h1, h2⟩ := focusStep_fields fb sc s
  refine ⟨h1, h2, ?_⟩
  unfold focusVisible
  rw [h1, h2]

/-- Claim C10: after a successful sibling resolution in either direction,
the previously current heading's line is not in the unfold set computed
for the resolved sibling: the sibling has the same level and parent, so
the current heading is neither the sibling, nor an ancestor of it
(ancestors have smaller level), nor a descendant (descendants have
greater level). -/
theorem claim_C10 (lines : List String) (cursor c s : Nat)
    (hc : findCurrentIdx (parseHeaders lines) cursor = some c) :
    (findNextSibling (parseHeaders lines) c = some s →
      ∃ hcn, (parseHeaders lines)[c]? = some hcn ∧
        hcn.line ∉ unfoldSet (parseHeaders lines) s) ∧
    (findPrevSibling (parseHeaders lines) c = some s →
      ∃ hcn, (parseHeaders lines)[c]? = some hcn ∧
        hcn.line ∉ unfoldSet (parseHeaders lines) s) := by
  obtain ⟨hclen, hcn, hgc, -, -⟩ := findCurrentIdx_some hc
  have HOK := parse_headersOK lines
  have HS := parse_sorted lines
  constructor
  · intro hsib
    obtain ⟨hcs, hs, hgs, hslev, hspar, -⟩ := findNextSibling_some hgc hsib
    refine ⟨hcn, hgc, ?_⟩
    intro hmem
    obtain ⟨j, hj, hgj, hline, hanc⟩ :=
      (mem_unfoldSet HOK (getElem?_some_lt hgs) hcn.line).mp hmem
    have he : j = c := sorted_line_inj HS hgj hgc hline
    subst he
    rcases hanc with ha | ha
    · rcases anc_strict HOK HS ha with he2 | ⟨hlt, hi, hj2, hgi, hgj2, hlev, -⟩
      · omega
      · rw [hgs] at hgi
        rw [hgc] at hgj2
        have he3 := Option.some.inj hgi
        have he4 := Option.some.inj hgj2
        rw [← he3, ← he4] at hlev
        omega
    · rcases anc_strict HOK HS ha with he2 | ⟨hlt, -, -, -, -, -, -⟩
      · omega
      · omega
  · intro hsib
    obtain ⟨hcs, hs, hgs, hslev, hspar, -⟩ := findPrevSibling_some hgc hsib
    refine ⟨hcn, hgc, ?_⟩
    intro hmem
    obtain ⟨j, hj, hgj, hline, hanc⟩ :=
      (mem_unfoldSet HOK (getElem?_some_lt hgs) hcn.line).mp hmem
    have he : j = c := sorted_line_inj HS hgj hgc hline
    subst he
    rcases hanc with ha | ha
    · rcases anc_strict HOK HS ha with he2 | ⟨hlt, -, -, -, -, -, -⟩
      · omega
      · omega
    · rcases anc_strict HOK HS ha with he2 | ⟨hlt, hi, hj2, hgi, hgj2, hlev, -⟩
      · omega
      · rw [hgc] at hgi
        rw [hgs] at hgj2
        have he3 := Option.some.inj hgi
        have he4 := Option.some.inj hgj2
        rw [← he3, ← he4] at hlev
        omega

/-- Witness for claim C10: moving from the level-2 heading at line 1 to
its next sibling at line 2 leaves line 1 out of the new unfold set. -/
theorem claim_C10_witness :
    ∃ hcn, (parseHeaders ["# a", "## b", "## c"])[1]? = some hcn ∧
      hcn.line ∉ unfoldSet (parseHeaders ["# a", "## b", "## c"]) 2 :=
  (claim_C10 ["# a", "## b", "## c"] 1 1 2 (by decide)).1 (by decide)
